import Mathlib

/-!
Verification of the Chain-Guard supply-chain ledger core
(`src/types.ts`, `src/services/blockchain.ts`, `src/services/crypto.ts`).

The ledger core treats the hash function as an external collaborator
(spec sections 1 and 6: an abstract deterministic, collision-resistant
one-way hash; the implementation delegates to a SHA-256 library call and
never inspects the digest's structure).  Accordingly every definition
below is parameterised by an arbitrary hash function `H : String → String`,
and the theorems quantify over `H` wherever they hold for every hash.
For closed statements that must evaluate on concrete inputs we instantiate
`H` with `hashData`, an ideal (injective) stand-in for the SHA-256
collaborator.
-/

namespace ChainGuard

/-- Transaction record from `src/types.ts` (`interface Transaction`); the
optional UI-only `valid?` flag carries no ledger content and is omitted. -/
structure Transaction where
  id : String
  productName : String
  details : String
  timestamp : Nat
  signerPublicKey : String
  signature : String
deriving DecidableEq

/-- Block header from `src/types.ts` (`interface BlockHeader`). -/
structure BlockHeader where
  index : Nat
  previousHash : String
  timestamp : Nat
  merkleRoot : String
  nonce : Nat
deriving DecidableEq

/-- Block from `src/types.ts` (`interface Block`). -/
structure Block where
  header : BlockHeader
  transactions : List Transaction
  hash : String
deriving DecidableEq

/-- The side tag of a Merkle proof step (`'left' | 'right'` in the source). -/
inductive Position where
  | left : Position
  | right : Position
deriving DecidableEq

/-- One step of a Merkle inclusion proof (`interface MerkleProofStep`). -/
structure MerkleProofStep where
  hash : String
  position : Position
deriving DecidableEq

/-- Modelled from the spec: the external hash collaborator (`hashData` in
`src/services/crypto.ts` delegates to a SHA-256 library).  The spec keeps
the hash algorithm itself out of scope and only requires a deterministic,
collision-resistant function producing a digest string; we use an ideal
injective instance so that concrete distinctness facts (which hold for
SHA-256 at the inputs used below) are decidable. -/
def hashData (s : String) : String :=
  "#(" ++ s ++ ")"

/-- One pairwise-reduction level of the Merkle tree: the body of the
`for (let i = 0; i < hashes.length; i += 2)` loop shared by
`getMerkleRoot`, `getMerkleProof` and `buildMerkleTreeData`.  Adjacent
pairs are hashed together; a final unpaired element is hashed with
itself. -/
def combinePairs (H : String → String) : List String → List String
  | [] => []
  | [a] => [H (a ++ a)]
  | a :: b :: rest => H (a ++ b) :: combinePairs H rest

theorem combinePairs_length (H : String → String) :
    ∀ l : List String, (combinePairs H l).length = (l.length + 1) / 2
  | [] => by simp [combinePairs]
  | [a] => by simp [combinePairs]
  | a :: b :: rest => by
      simp [combinePairs, combinePairs_length H rest]
      omega

/-- The `while (hashes.length > 1)` reduction loop of `getMerkleRoot`:
repeatedly collapse the level until one hash remains, then return
`hashes[0]` (modelled as `getD 0 ""`; the source never reaches this read
on an empty list because the caller guards emptiness). -/
def rootFrom (H : String → String) (hashes : List String) : String :=
  if h : 1 < hashes.length then
    rootFrom H (combinePairs H hashes)
  else
    hashes.getD 0 ""
termination_by hashes.length
decreasing_by
  simp [combinePairs_length]
  omega

/-- `getMerkleRoot` from `src/services/blockchain.ts`: the empty sequence
maps to `H ""`, otherwise the transaction ids are reduced pairwise to a
single root. -/
def getMerkleRoot (H : String → String) (transactions : List Transaction) : String :=
  if transactions.length = 0 then H ""
  else rootFrom H (transactions.map Transaction.id)

/-- `hashes.findIndex(h => h === targetTxId)` with the `-1` sentinel
rendered as `none`: index of the first occurrence of `target`. -/
def findIndex (target : String) : List String → Option Nat
  | [] => none
  | a :: rest => if a = target then some 0 else (findIndex target rest).map (· + 1)

/-- The sibling step recorded at one level of `getMerkleProof`: at an even
index the right neighbour (or the element itself when unpaired) tagged
`right`; at an odd index the left neighbour tagged `left`. -/
def siblingStep (hashes : List String) (index : Nat) : MerkleProofStep :=
  if index % 2 = 0 then
    if index + 1 < hashes.length then
      { hash := hashes.getD (index + 1) "", position := Position.right }
    else
      { hash := hashes.getD index "", position := Position.right }
  else
    { hash := hashes.getD (index - 1) "", position := Position.left }

/-- The `while (hashes.length > 1)` loop of `getMerkleProof`: record the
sibling of the tracked index, rebuild the next level with the same pairwise
reduction, and halve the index. -/
def proofLoop (H : String → String) (hashes : List String) (index : Nat) :
    List MerkleProofStep :=
  if h : 1 < hashes.length then
    siblingStep hashes index :: proofLoop H (combinePairs H hashes) (index / 2)
  else []
termination_by hashes.length
decreasing_by
  simp [combinePairs_length]
  omega

/-- `getMerkleProof` from `src/services/blockchain.ts`: locate the target
id among the leaf ids (empty proof when absent) and collect sibling steps
up the tree. -/
def getMerkleProof (H : String → String) (transactions : List Transaction)
    (targetTxId : String) : List MerkleProofStep :=
  let hashes := transactions.map Transaction.id
  match findIndex targetTxId hashes with
  | none => []
  | some index => proofLoop H hashes index

/-- Folding one proof step into the running hash, as in the body of the
`for (const step of proof)` loop of `verifyMerkleProof`. -/
def applyStep (H : String → String) (currentHash : String)
    (step : MerkleProofStep) : String :=
  match step.position with
  | Position.right => H (currentHash ++ step.hash)
  | Position.left => H (step.hash ++ currentHash)

/-- `verifyMerkleProof` from `src/services/blockchain.ts`: fold the steps
into the leaf and compare with the root. -/
def verifyMerkleProof (H : String → String) (leafHash : String)
    (proof : List MerkleProofStep) (root : String) : Bool :=
  proof.foldl (applyStep H) leafHash == root

/-- Ledger state of `class Blockchain`: the chain, the pending pool, and
the revoked-key set (`Set<string>` in the source, `Finset` here). -/
structure Blockchain where
  chain : List Block
  pendingTransactions : List Transaction
  revokedKeys : Finset String
deriving DecidableEq

/-- `createGenesisBlock`: index 0, previous hash `"0"`, Merkle root
`hash("Genesis Block")`, nonce 0, and hash of the template
`` `00${timestamp}${hashData("Genesis Block")}0` ``.  The ambient
timestamp (`Date.now()`) is passed explicitly. -/
def createGenesisBlock (H : String → String) (ts : Nat) : Block :=
  { header :=
      { index := 0
        previousHash := "0"
        timestamp := ts
        merkleRoot := H "Genesis Block"
        nonce := 0 }
    transactions := []
    hash := H ("00" ++ toString ts ++ H "Genesis Block" ++ "0") }

/-- The `Blockchain` constructor: a single genesis block, empty pool,
empty revoked set. -/
def Blockchain.new (H : String → String) (ts : Nat) : Blockchain :=
  { chain := [createGenesisBlock H ts]
    pendingTransactions := []
    revokedKeys := ∅ }

/-- `getLatestBlock`: `this.chain[this.chain.length - 1]`, i.e. the last
element of the chain (`none` on an empty chain, where the source read
would be undefined). -/
def Blockchain.getLatestBlock (s : Blockchain) : Option Block :=
  s.chain.getLast?

/-- `addTransaction`: reject (returning `false`, state unchanged) when the
signer key is revoked, otherwise push the transaction onto the pool and
return `true`. -/
def Blockchain.addTransaction (s : Blockchain) (tx : Transaction) :
    Blockchain × Bool :=
  if tx.signerPublicKey ∈ s.revokedKeys then (s, false)
  else ({ s with pendingTransactions := s.pendingTransactions ++ [tx] }, true)

/-- `calculateBlockHash`: hash of the concatenated header fields
`` `${index}${previousHash}${timestamp}${merkleRoot}${nonce}` ``. -/
def Blockchain.calculateBlockHash (H : String → String) (block : Block) : String :=
  H (toString block.header.index ++ block.header.previousHash ++
     toString block.header.timestamp ++ block.header.merkleRoot ++
     toString block.header.nonce)

/-- `minePendingTransactions`: snapshot the pool into a new block linked
to the latest block, hash it, append it and clear the pool.  The ambient
timestamp and the random nonce are passed explicitly; the undefined read
`getLatestBlock().hash` on an empty chain is rendered as `none`. -/
def Blockchain.minePendingTransactions (H : String → String) (s : Blockchain)
    (ts nonce : Nat) : Option (Blockchain × Block) :=
  match s.getLatestBlock with
  | none => none
  | some previousBlock =>
    let transactions := s.pendingTransactions
    let merkleRoot := getMerkleRoot H transactions
    let block0 : Block :=
      { header :=
          { index := s.chain.length
            previousHash := previousBlock.hash
            timestamp := ts
            merkleRoot := merkleRoot
            nonce := nonce }
        transactions := transactions
        hash := "" }
    let block : Block := { block0 with hash := Blockchain.calculateBlockHash H block0 }
    some ({ s with chain := s.chain ++ [block], pendingTransactions := [] }, block)

/-- The `for (let i = 1; i < chain.length; i++)` loop of `isChainValid`,
rendered as a walk over adjacent pairs: `prev` is `chain[i-1]` and the
head of the list argument is `chain[i]`.  Each failed check returns
`false` immediately, as in the source. -/
def validFrom (H : String → String) (prev : Block) : List Block → Bool
  | [] => true
  | cur :: rest =>
    if cur.hash ≠ Blockchain.calculateBlockHash H cur then false
    else if cur.header.previousHash ≠ prev.hash then false
    else if cur.header.merkleRoot ≠ getMerkleRoot H cur.transactions then false
    else validFrom H cur rest

/-- `isChainValid`: check every block from index 1 onward against its
predecessor; the genesis block itself is never re-checked. -/
def Blockchain.isChainValid (H : String → String) (s : Blockchain) : Bool :=
  match s.chain with
  | [] => true
  | g :: rest => validFrom H g rest

/-- `revokeKey`: insert the key into the revoked set (`Set.add`). -/
def Blockchain.revokeKey (s : Blockchain) (publicKey : String) : Blockchain :=
  { s with revokedKeys := insert publicKey s.revokedKeys }

/-- The ledger states reachable through the public mutating interface:
the freshly constructed ledger, and closure under `addTransaction`,
`minePendingTransactions` (with arbitrary ambient timestamp and nonce)
and `revokeKey`. -/
inductive Reachable (H : String → String) : Blockchain → Prop
  | init (ts : Nat) : Reachable H (Blockchain.new H ts)
  | add {s : Blockchain} (tx : Transaction) :
      Reachable H s → Reachable H (s.addTransaction tx).1
  | mine {s s2 : Blockchain} {b : Block} (ts nonce : Nat) :
      Reachable H s →
      Blockchain.minePendingTransactions H s ts nonce = some (s2, b) →
      Reachable H s2
  | revoke {s : Blockchain} (k : String) :
      Reachable H s → Reachable H (s.revokeKey k)

/-- Placeholder block used as the default value of out-of-range list reads
in indexed statements; bounds-checked statements never read it. -/
def defBlock : Block :=
  { header :=
      { index := 0, previousHash := "", timestamp := 0, merkleRoot := "", nonce := 0 }
    transactions := []
    hash := "" }

/-- A sample transaction for concrete instances. -/
def txA : Transaction :=
  { id := "a", productName := "apples", details := "lot 1", timestamp := 1,
    signerPublicKey := "keyA", signature := "sigA" }

/-- A second sample transaction for concrete instances. -/
def txB : Transaction :=
  { id := "b", productName := "beans", details := "lot 2", timestamp := 2,
    signerPublicKey := "keyB", signature := "sigB" }

/-! ### Merkle engine lemmas -/

theorem combinePairs_getD (H : String → String) :
    ∀ (l : List String) (j : Nat),
      (combinePairs H l).getD j "" =
        if 2 * j + 1 < l.length then H (l.getD (2 * j) "" ++ l.getD (2 * j + 1) "")
        else if 2 * j < l.length then H (l.getD (2 * j) "" ++ l.getD (2 * j) "")
        else ""
  | [], j => by simp [combinePairs]
  | [a], 0 => by simp [combinePairs]
  | [a], j + 1 => by
      rw [if_neg (show ¬ 2 * (j + 1) + 1 < [a].length by simp), if_neg
        (show ¬ 2 * (j + 1) < [a].length by simp)]
      simp [combinePairs]
  | a :: b :: rest, 0 => by simp [combinePairs]
  | a :: b :: rest, j + 1 => by
      have ih := combinePairs_getD H rest j
      have e2 : 2 * (j + 1) + 1 = 2 * j + 1 + 1 + 1 := by ring
      have e1 : 2 * (j + 1) = 2 * j + 1 + 1 := by ring
      rw [e2, e1]
      simp only [combinePairs, List.getD_cons_succ, List.length_cons]
      rw [ih]
      by_cases h1 : 2 * j + 1 < rest.length
      · rw [if_pos h1, if_pos (show 2 * j + 1 + 1 + 1 < rest.length + 1 + 1 by omega)]
      · rw [if_neg h1, if_neg (show ¬ 2 * j + 1 + 1 + 1 < rest.length + 1 + 1 by omega)]
        by_cases h2 : 2 * j < rest.length
        · rw [if_pos h2, if_pos (show 2 * j + 1 + 1 < rest.length + 1 + 1 by omega)]
        · rw [if_neg h2, if_neg (show ¬ 2 * j + 1 + 1 < rest.length + 1 + 1 by omega)]

theorem applyStep_siblingStep (H : String → String) (l : List String) (index : Nat)
    (hidx : index < l.length) :
    applyStep H (l.getD index "") (siblingStep l index) =
      (combinePairs H l).getD (index / 2) "" := by
  have hcp := combinePairs_getD H l (index / 2)
  by_cases hpar : index % 2 = 0
  · have h2 : 2 * (index / 2) = index := by omega
    by_cases hnext : index + 1 < l.length
    · rw [siblingStep, if_pos hpar, if_pos hnext]
      rw [hcp, if_pos (show 2 * (index / 2) + 1 < l.length by omega)]
      rw [show 2 * (index / 2) + 1 = index + 1 by omega, h2]
      simp [applyStep]
    · rw [siblingStep, if_pos hpar, if_neg hnext]
      rw [hcp, if_neg (show ¬ 2 * (index / 2) + 1 < l.length by omega),
        if_pos (show 2 * (index / 2) < l.length by omega)]
      rw [h2]
      simp [applyStep]
  · have h3 : 2 * (index / 2) + 1 = index := by omega
    have h2 : 2 * (index / 2) = index - 1 := by omega
    rw [siblingStep, if_neg hpar]
    rw [hcp, if_pos (show 2 * (index / 2) + 1 < l.length by omega)]
    rw [h3, h2]
    simp [applyStep]

theorem proofLoop_foldl (H : String → String) :
    ∀ (n : Nat) (l : List String) (index : Nat), l.length ≤ n → index < l.length →
      (proofLoop H l index).foldl (applyStep H) (l.getD index "") = rootFrom H l := by
  intro n
  induction n with
  | zero => intro l index h1 h2; omega
  | succ n ih =>
    intro l index h1 h2
    by_cases hl : 1 < l.length
    · rw [proofLoop, dif_pos hl, rootFrom, dif_pos hl]
      rw [List.foldl_cons]
      rw [applyStep_siblingStep H l index h2]
      apply ih
      · rw [combinePairs_length]; omega
      · rw [combinePairs_length]; omega
    · have hi0 : index = 0 := by omega
      rw [proofLoop, dif_neg hl, rootFrom, dif_neg hl, hi0]
      simp

theorem findIndex_spec :
    ∀ (l : List String) (target : String), target ∈ l →
      ∃ i, findIndex target l = some i ∧ i < l.length ∧ l.getD i "" = target
  | [], target, h => absurd h (by simp)
  | a :: rest, target, h => by
      by_cases ha : a = target
      · exact ⟨0, by simp [findIndex, ha], by simp, by simp [ha]⟩
      · have hr : target ∈ rest := by
          rcases List.mem_cons.mp h with h1 | h1
          · exact absurd h1.symm ha
          · exact h1
        obtain ⟨i, h1, h2, h3⟩ := findIndex_spec rest target hr
        refine ⟨i + 1, ?_, by simp; omega, by simpa using h3⟩
        simp [findIndex, ha, h1]

theorem findIndex_eq_none :
    ∀ (l : List String) (target : String), target ∉ l → findIndex target l = none
  | [], _, _ => rfl
  | a :: rest, target, h => by
      have ha : ¬ a = target := fun e => h (by simp [e])
      have hr : target ∉ rest := fun m => h (List.mem_cons_of_mem _ m)
      simp [findIndex, ha, findIndex_eq_none rest target hr]

/-- C1: for every transaction sequence and every transaction `t` in it,
the proof built for `t.id` verifies against the root computed for the
sequence, for every hash function. -/
theorem merkle_proof_roundtrip (H : String → String)
    (transactions : List Transaction) (t : Transaction)
    (ht : t ∈ transactions) :
    verifyMerkleProof H t.id (getMerkleProof H transactions t.id)
      (getMerkleRoot H transactions) = true := by
  have hid : t.id ∈ transactions.map Transaction.id :=
    List.mem_map_of_mem _ ht
  obtain ⟨i, h1, h2, h3⟩ := findIndex_spec (transactions.map Transaction.id) t.id hid
  have hne : ¬ transactions.length = 0 := by
    cases transactions with
    | nil => simp at ht
    | cons a l => simp
  rw [getMerkleRoot, if_neg hne]
  rw [verifyMerkleProof]
  simp only [getMerkleProof, h1]
  rw [← h3]
  rw [proofLoop_foldl H (transactions.map Transaction.id).length _ i le_rfl h2]
  simp

/-! ### Chain validation lemmas -/

theorem validFrom_cons (H : String → String) (prev cur : Block) (rest : List Block) :
    validFrom H prev (cur :: rest) = true ↔
      (cur.hash = Blockchain.calculateBlockHash H cur ∧
       cur.header.previousHash = prev.hash ∧
       cur.header.merkleRoot = getMerkleRoot H cur.transactions ∧
       validFrom H cur rest = true) := by
  rw [validFrom]
  split_ifs with h1 h2 h3
  · simp [h1]
  · simp [h2]
  · simp [h3]
  · simp [not_not.mp h1, not_not.mp h2, not_not.mp h3]

theorem validFrom_iff (H : String → String) :
    ∀ (l : List Block) (prev : Block),
      validFrom H prev l = true ↔
        ∀ j, j < l.length →
          ((l.getD j defBlock).hash =
              Blockchain.calculateBlockHash H (l.getD j defBlock) ∧
           (l.getD j defBlock).header.previousHash =
              ((prev :: l).getD j defBlock).hash ∧
           (l.getD j defBlock).header.merkleRoot =
              getMerkleRoot H (l.getD j defBlock).transactions)
  | [], prev => by simp [validFrom]
  | cur :: rest, prev => by
      rw [validFrom_cons, validFrom_iff H rest cur]
      constructor
      · rintro ⟨hA, hB, hC, hrec⟩ j hj
        cases j with
        | zero => simpa using ⟨hA, hB, hC⟩
        | succ j =>
          have := hrec j (by simpa using hj)
          simpa using this
      · intro hall
        refine ⟨?_, ?_, ?_, ?_⟩
        · simpa using (hall 0 (by simp)).1
        · simpa using (hall 0 (by simp)).2.1
        · simpa using (hall 0 (by simp)).2.2
        · intro j hj
          have := hall (j + 1) (by simpa using hj)
          simpa using this

/-- C2: `isChainValid` is `true` on a freshly constructed ledger, and in
general it is `true` iff every block at index 1 or greater has its stored
hash equal to the recomputed block hash, its stored `previousHash` equal
to the preceding block's stored hash, and its stored `merkleRoot` equal to
the recomputed Merkle root; the genesis block at index 0 is never
re-checked. -/
theorem isChainValid_spec :
    (∀ (H : String → String) (ts : Nat),
        Blockchain.isChainValid H (Blockchain.new H ts) = true) ∧
    (∀ (H : String → String) (s : Blockchain),
        Blockchain.isChainValid H s = true ↔
          ∀ i, 1 ≤ i → i < s.chain.length →
            ((s.chain.getD i defBlock).hash =
                Blockchain.calculateBlockHash H (s.chain.getD i defBlock) ∧
             (s.chain.getD i defBlock).header.previousHash =
                (s.chain.getD (i - 1) defBlock).hash ∧
             (s.chain.getD i defBlock).header.merkleRoot =
                getMerkleRoot H (s.chain.getD i defBlock).transactions)) := by
  constructor
  · intro H ts
    rfl
  · intro H s
    cases hc : s.chain with
    | nil =>
      simp only [Blockchain.isChainValid, hc]
      constructor
      · intro _ i _ hi
        simp at hi
      · intro _
        trivial
    | cons g rest =>
      simp only [Blockchain.isChainValid, hc]
      rw [validFrom_iff H rest g]
      constructor
      · intro hall i h1 h2
        cases i with
        | zero => omega
        | succ j =>
          have := hall j (by simp at h2; omega)
          simpa using this
      · intro hall j hj
        have := hall (j + 1) (by omega) (by simp; omega)
        simpa using this

/-! ### Mining, admission, revocation -/

/-- C3: on every ledger state with a nonempty chain (every ledger starts
with the genesis block), mining succeeds, empties the pool, appends
exactly one block whose transactions are the old pool in order, whose
`previousHash` is the old last block's stored hash, whose `index` is the
old chain length, whose `merkleRoot` is the root of the old pool's ids,
and whose stored hash is `calculateBlockHash` of its own header. -/
theorem minePendingTransactions_spec (H : String → String) (s : Blockchain)
    (ts nonce : Nat) (hne : s.chain ≠ []) :
    ∃ (s2 : Blockchain) (b : Block),
      Blockchain.minePendingTransactions H s ts nonce = some (s2, b) ∧
      s2.pendingTransactions = [] ∧
      s2.chain.length = s.chain.length + 1 ∧
      s2.chain = s.chain ++ [b] ∧
      s2.revokedKeys = s.revokedKeys ∧
      b.transactions = s.pendingTransactions ∧
      b.header.previousHash = (s.chain.getLast hne).hash ∧
      b.header.index = s.chain.length ∧
      b.header.timestamp = ts ∧
      b.header.nonce = nonce ∧
      b.header.merkleRoot = getMerkleRoot H s.pendingTransactions ∧
      b.hash = Blockchain.calculateBlockHash H b := by
  have hlast : s.getLatestBlock = some (s.chain.getLast hne) := by
    rw [Blockchain.getLatestBlock]
    exact List.getLast?_eq_getLast_of_ne_nil hne
  let block0 : Block :=
    { header :=
        { index := s.chain.length
          previousHash := (s.chain.getLast hne).hash
          timestamp := ts
          merkleRoot := getMerkleRoot H s.pendingTransactions
          nonce := nonce }
      transactions := s.pendingTransactions
      hash := "" }
  let block : Block := { block0 with hash := Blockchain.calculateBlockHash H block0 }
  refine ⟨{ s with chain := s.chain ++ [block], pendingTransactions := [] }, block,
    ?_, rfl, by simp, rfl, rfl, rfl, rfl, rfl, rfl, rfl, rfl, rfl⟩
  rw [Blockchain.minePendingTransactions, hlast]

/-- C4 counterexample: the empty-sequence Merkle root is the hash of the
empty string itself, so it is not the hash of any sentinel string whose
hash differs from `hashData ""`. -/
theorem getMerkleRoot_nil_no_sentinel :
    ¬ ∃ s : String, s ≠ "" ∧ getMerkleRoot hashData [] = hashData s ∧
        hashData s ≠ hashData "" := by
  rintro ⟨s, -, h1, h2⟩
  have h0 : getMerkleRoot hashData [] = hashData "" := rfl
  exact h2 (h1.symm.trans h0)

/-- C4 (amended): `getMerkleRoot` applied to the empty transaction
sequence returns `H ""`, the hash of the empty string, for every hash
function. -/
theorem getMerkleRoot_nil (H : String → String) :
    getMerkleRoot H [] = H "" := rfl

/-- C5: `addTransaction` returns `false` exactly when the signer key is
in the revoked set; on rejection the whole state is unchanged, and on
acceptance the transaction is appended at the end of the pool, the chain
and revoked set are untouched, and the result is `true`. -/
theorem addTransaction_spec (s : Blockchain) (tx : Transaction) :
    ((s.addTransaction tx).2 = false ↔ tx.signerPublicKey ∈ s.revokedKeys) ∧
    (tx.signerPublicKey ∈ s.revokedKeys → (s.addTransaction tx).1 = s) ∧
    (tx.signerPublicKey ∉ s.revokedKeys →
      (s.addTransaction tx).2 = true ∧
      (s.addTransaction tx).1.pendingTransactions =
        s.pendingTransactions ++ [tx] ∧
      (s.addTransaction tx).1.chain = s.chain ∧
      (s.addTransaction tx).1.revokedKeys = s.revokedKeys) := by
  by_cases h : tx.signerPublicKey ∈ s.revokedKeys
  · simp [Blockchain.addTransaction, h]
  · simp [Blockchain.addTransaction, h]

/-- C6 counterexample: for the single-transaction block `[txA]` the Merkle
root is the transaction identifier itself, not the hash of the identifier
concatenated with itself. -/
theorem getMerkleRoot_singleton_cex :
    getMerkleRoot hashData [txA] ≠ hashData (txA.id ++ txA.id) := by
  have h : getMerkleRoot hashData [txA] = "a" := by
    simp [getMerkleRoot, rootFrom, txA]
  rw [h]
  decide

/-- C6 (amended): for a block with exactly one transaction, `getMerkleRoot`
returns the transaction's identifier unchanged (the single leaf never
enters the reduction loop), and `getMerkleProof` for that transaction
returns the empty proof. -/
theorem getMerkleRoot_singleton (H : String → String) (t : Transaction) :
    getMerkleRoot H [t] = t.id ∧ getMerkleProof H [t] t.id = [] := by
  constructor
  · rw [getMerkleRoot, if_neg (show ¬ ([t] : List Transaction).length = 0 by simp)]
    rw [rootFrom, dif_neg (show ¬ 1 < ([t].map Transaction.id).length by simp)]
    simp
  · rw [getMerkleProof]
    simp only [List.map]
    rw [show findIndex t.id [t.id] = some 0 from by simp [findIndex]]
    show proofLoop H [t.id] 0 = []
    rw [proofLoop, dif_neg (show ¬ 1 < ([t.id] : List String).length by simp)]

/-- C7: in the pairwise reduction, a level with an odd number of elements
combines its final unpaired element with itself as `H (a ++ a)` (stated
via the last position of the next level); in particular a 3-element level
`[a, b, c]` reduces to `[H (a ++ b), H (c ++ c)]` and the root of a
3-transaction block is `H (H (a ++ b) ++ H (c ++ c))` over the ids. -/
theorem merkle_odd_duplication :
    (∀ (H : String → String) (a b c : String),
        combinePairs H [a, b, c] = [H (a ++ b), H (c ++ c)]) ∧
    (∀ (H : String → String) (t1 t2 t3 : Transaction),
        getMerkleRoot H [t1, t2, t3] =
          H (H (t1.id ++ t2.id) ++ H (t3.id ++ t3.id))) ∧
    (∀ (H : String → String) (l : List String), l.length % 2 = 1 →
        (combinePairs H l).getD ((combinePairs H l).length - 1) "" =
          H (l.getD (l.length - 1) "" ++ l.getD (l.length - 1) "")) := by
  refine ⟨?_, ?_, ?_⟩
  · intro H a b c
    simp [combinePairs]
  · intro H t1 t2 t3
    rw [getMerkleRoot,
      if_neg (show ¬ ([t1, t2, t3] : List Transaction).length = 0 by simp)]
    simp only [List.map]
    rw [rootFrom,
      dif_pos (show 1 < ([t1.id, t2.id, t3.id] : List String).length by simp)]
    simp only [combinePairs]
    rw [rootFrom,
      dif_pos (show 1 < ([H (t1.id ++ t2.id), H (t3.id ++ t3.id)] : List String).length
        by simp)]
    simp only [combinePairs]
    rw [rootFrom,
      dif_neg (show ¬ 1 < ([H (H (t1.id ++ t2.id) ++ H (t3.id ++ t3.id))] :
        List String).length by simp)]
    simp
  · intro H l hodd
    rw [combinePairs_length H l]
    rw [combinePairs_getD H l ((l.length + 1) / 2 - 1)]
    rw [if_neg (show ¬ 2 * ((l.length + 1) / 2 - 1) + 1 < l.length by omega),
      if_pos (show 2 * ((l.length + 1) / 2 - 1) < l.length by omega)]
    rw [show 2 * ((l.length + 1) / 2 - 1) = l.length - 1 by omega]

/-- C9: `revokeKey` inserts the key into the revoked set and changes
nothing else; if the key is already revoked the call leaves the state
(and in particular the revoked set's size) unchanged. -/
theorem revokeKey_spec (s : Blockchain) (k : String) :
    (s.revokeKey k).revokedKeys = insert k s.revokedKeys ∧
    k ∈ (s.revokeKey k).revokedKeys ∧
    (s.revokeKey k).chain = s.chain ∧
    (s.revokeKey k).pendingTransactions = s.pendingTransactions ∧
    (k ∈ s.revokedKeys →
      s.revokeKey k = s ∧
      (s.revokeKey k).revokedKeys.card = s.revokedKeys.card) := by
  refine ⟨rfl, by simp [Blockchain.revokeKey], rfl, rfl, ?_⟩
  intro hk
  have hins : insert k s.revokedKeys = s.revokedKeys := Finset.insert_eq_self.mpr hk
  constructor
  · cases s with
    | mk c p r => simp only [Blockchain.revokeKey] at hins ⊢; rw [hins]
  · simp [Blockchain.revokeKey, hins]

/-- C10: with an empty proof, `verifyMerkleProof` succeeds exactly when
the leaf string equals the root string; hence any string verifies against
itself, and the empty proof returned for a target absent from a block's
ids verifies against the block's root only if the target equals that
root. -/
theorem verifyMerkleProof_empty_spec :
    (∀ (H : String → String) (leaf root : String),
        verifyMerkleProof H leaf [] root = true ↔ leaf = root) ∧
    (∀ (H : String → String) (leaf : String),
        verifyMerkleProof H leaf [] leaf = true) ∧
    (∀ (H : String → String) (transactions : List Transaction) (target : String),
        target ∉ transactions.map Transaction.id →
        getMerkleProof H transactions target = [] ∧
        (verifyMerkleProof H target (getMerkleProof H transactions target)
            (getMerkleRoot H transactions) = true ↔
          target = getMerkleRoot H transactions)) := by
  refine ⟨?_, ?_, ?_⟩
  · intro H leaf root
    simp [verifyMerkleProof]
  · intro H leaf
    simp [verifyMerkleProof]
  · intro H transactions target hnot
    have hf : findIndex target (transactions.map Transaction.id) = none :=
      findIndex_eq_none (transactions.map Transaction.id) target hnot
    have hp : getMerkleProof H transactions target = [] := by
      rw [getMerkleProof]
      simp only [hf]
    refine ⟨hp, ?_⟩
    rw [hp]
    simp [verifyMerkleProof]

/-! ### Reachable-state invariants -/

/-- C8 counterexample: in the freshly constructed (hence reachable)
ledger, the genesis block's stored `merkleRoot` is the hash of the
sentinel text `"Genesis Block"`, while the Merkle root recomputed over
its empty transaction sequence is the hash of the empty string; the two
differ, so not every block of every reachable state has a recomputable
`merkleRoot`. -/
theorem reachable_block_integrity_cex :
    ¬ (∀ s : Blockchain, Reachable hashData s → ∀ b ∈ s.chain,
        b.hash = Blockchain.calculateBlockHash hashData b ∧
        b.header.merkleRoot = getMerkleRoot hashData b.transactions) := by
  intro h
  have hg := h (Blockchain.new hashData 0) (Reachable.init 0)
    (createGenesisBlock hashData 0) (by simp [Blockchain.new])
  have hroot : hashData "Genesis Block" = hashData "" := hg.2
  exact absurd hroot (by decide)

/-- C8 (amended): in every reachable ledger state, every block's stored
hash equals `calculateBlockHash` of its header, and every block after the
first (i.e. every non-genesis block) also has its stored `merkleRoot`
equal to `getMerkleRoot` of its transaction sequence; the genesis block's
stored `merkleRoot` is the hash of `"Genesis Block"`, which is not the
root of its empty transaction sequence. -/
theorem reachable_block_integrity (H : String → String) (s : Blockchain)
    (hs : Reachable H s) :
    (∀ b ∈ s.chain, b.hash = Blockchain.calculateBlockHash H b) ∧
    (∀ b ∈ s.chain.tail, b.header.merkleRoot = getMerkleRoot H b.transactions) := by
  induction hs with
  | init ts =>
    constructor
    · intro b hb
      have hb1 : b = createGenesisBlock H ts := by simpa [Blockchain.new] using hb
      subst hb1
      have h1 : (createGenesisBlock H ts).hash =
          H ("00" ++ toString ts ++ H "Genesis Block" ++ "0") := rfl
      have h2 : Blockchain.calculateBlockHash H (createGenesisBlock H ts) =
          H (toString (0 : Nat) ++ "0" ++ toString ts ++ H "Genesis Block" ++
             toString (0 : Nat)) := rfl
      rw [h1, h2]
      rfl
    · intro b hb
      simp [Blockchain.new] at hb
  | @add s tx hr ih =>
    have hc : ((s.addTransaction tx).1).chain = s.chain := by
      rw [Blockchain.addTransaction]
      split <;> rfl
    rw [hc]
    exact ih
  | @mine s s2 b ts nonce hr hmine ih =>
    cases hlast : s.getLatestBlock with
    | none =>
      rw [Blockchain.minePendingTransactions, hlast] at hmine
      cases hmine
    | some pb =>
      rw [Blockchain.minePendingTransactions, hlast] at hmine
      have hpair := Option.some.inj hmine
      have hs2 : s2 = { s with
          chain := s.chain ++
            [{ header :=
                 { index := s.chain.length
                   previousHash := pb.hash
                   timestamp := ts
                   merkleRoot := getMerkleRoot H s.pendingTransactions
                   nonce := nonce }
               transactions := s.pendingTransactions
               hash := Blockchain.calculateBlockHash H
                 { header :=
                     { index := s.chain.length
                       previousHash := pb.hash
                       timestamp := ts
                       merkleRoot := getMerkleRoot H s.pendingTransactions
                       nonce := nonce }
                   transactions := s.pendingTransactions
                   hash := "" } }]
          pendingTransactions := [] } := congrArg Prod.fst hpair |>.symm
      have hchain_ne : s.chain ≠ [] := by
        intro he
        rw [Blockchain.getLatestBlock, he] at hlast
        cases hlast
      constructor
      · intro blk hblk
        rw [hs2] at hblk
        simp only [List.mem_append, List.mem_singleton] at hblk
        rcases hblk with hold | hnew
        · exact ih.1 blk hold
        · subst hnew
          rfl
      · intro blk hblk
        rw [hs2] at hblk
        cases hcs : s.chain with
        | nil => exact absurd hcs hchain_ne
        | cons x xs =>
          rw [hcs] at hblk
          simp only [List.cons_append, List.tail_cons, List.mem_append,
            List.mem_singleton] at hblk
          rcases hblk with hold | hnew
          · exact ih.2 blk (by rw [hcs]; simpa using hold)
          · subst hnew
            rfl
  | @revoke s k hr ih =>
    exact ih

/-! ### Concrete witnesses -/

/-- Witness for C1: the roundtrip property evaluated at the two-element
sequence `[txA, txB]` and its member `txA`. -/
theorem merkle_proof_roundtrip_witness :
    txA ∈ [txA, txB] ∧
    verifyMerkleProof hashData txA.id (getMerkleProof hashData [txA, txB] txA.id)
      (getMerkleRoot hashData [txA, txB]) = true :=
  ⟨by simp, merkle_proof_roundtrip hashData [txA, txB] txA (by simp)⟩

/-- Witness for C2: the freshly constructed ledger validates. -/
theorem isChainValid_spec_witness :
    Blockchain.isChainValid hashData (Blockchain.new hashData 0) = true :=
  isChainValid_spec.1 hashData 0

/-- Witness for C3: mining the fresh ledger (empty pool) succeeds. -/
theorem minePendingTransactions_spec_witness :
    (Blockchain.new hashData 0).chain ≠ [] ∧
    (Blockchain.minePendingTransactions hashData (Blockchain.new hashData 0) 5 7).isSome
      = true := by
  have hne : (Blockchain.new hashData 0).chain ≠ [] := by simp [Blockchain.new]
  obtain ⟨s2, b, h1, -⟩ :=
    minePendingTransactions_spec hashData (Blockchain.new hashData 0) 5 7 hne
  exact ⟨hne, by rw [h1]; rfl⟩

/-- Witness for C5: a transaction with an unrevoked signer is accepted by
the fresh ledger and lands at the end of the (previously empty) pool. -/
theorem addTransaction_spec_witness :
    txA.signerPublicKey ∉ (Blockchain.new hashData 0).revokedKeys ∧
    ((Blockchain.new hashData 0).addTransaction txA).2 = true ∧
    ((Blockchain.new hashData 0).addTransaction txA).1.pendingTransactions = [txA] := by
  have hn : txA.signerPublicKey ∉ (Blockchain.new hashData 0).revokedKeys := by
    simp [Blockchain.new]
  obtain ⟨h1, h2, -, -⟩ := (addTransaction_spec (Blockchain.new hashData 0) txA).2.2 hn
  exact ⟨hn, h1, by simpa [Blockchain.new] using h2⟩

/-- Witness for C7: the odd-level duplication rule evaluated at the
3-element level `["a", "b", "c"]`. -/
theorem merkle_odd_duplication_witness :
    (["a", "b", "c"] : List String).length % 2 = 1 ∧
    (combinePairs hashData ["a", "b", "c"]).getD
        ((combinePairs hashData ["a", "b", "c"]).length - 1) "" =
      hashData ((["a", "b", "c"] : List String).getD
          ((["a", "b", "c"] : List String).length - 1) "" ++
        (["a", "b", "c"] : List String).getD
          ((["a", "b", "c"] : List String).length - 1) "") :=
  ⟨by decide, merkle_odd_duplication.2.2 hashData ["a", "b", "c"] (by decide)⟩

/-- Witness for C8: the genesis block of the fresh (reachable) ledger has
a recomputable stored hash. -/
theorem reachable_block_integrity_witness :
    (createGenesisBlock hashData 0).hash =
      Blockchain.calculateBlockHash hashData (createGenesisBlock hashData 0) :=
  (reachable_block_integrity hashData (Blockchain.new hashData 0) (Reachable.init 0)).1
    (createGenesisBlock hashData 0) (by simp [Blockchain.new])

/-- Witness for C9: revoking `"keyA"` twice is a no-op the second time. -/
theorem revokeKey_spec_witness :
    "keyA" ∈ ((Blockchain.new hashData 0).revokeKey "keyA").revokedKeys ∧
    ((Blockchain.new hashData 0).revokeKey "keyA").revokeKey "keyA" =
      (Blockchain.new hashData 0).revokeKey "keyA" := by
  have hm : "keyA" ∈ ((Blockchain.new hashData 0).revokeKey "keyA").revokedKeys := by
    simp [Blockchain.revokeKey]
  exact ⟨hm,
    ((revokeKey_spec ((Blockchain.new hashData 0).revokeKey "keyA") "keyA").2.2.2.2 hm).1⟩

/-- Witness for C10: a target absent from the block yields the empty
proof. -/
theorem verifyMerkleProof_empty_spec_witness :
    "z" ∉ ([txA] : List Transaction).map Transaction.id ∧
    getMerkleProof hashData [txA] "z" = [] := by
  have hn : "z" ∉ ([txA] : List Transaction).map Transaction.id := by
    simp [txA]
  exact ⟨hn, (verifyMerkleProof_empty_spec.2.2 hashData [txA] "z" hn).1⟩

end ChainGuard
